import Mathlib

/-!
Verification of the numeric toolkit in `src/utils/utils.cpp` of the
depth-aware-motion-deblurring repository.

The development shallowly embeds the relevant functions:

* `conv2` (shape-aware 2-D convolution, lines 63-140),
* `crossCorrelation` (masked normalized cross-correlation, lines 10-61),
* `swapQuadrants` (spectrum quadrant swap, lines 326-344),
* `fillPixel` and `edgeTaper` (gap filling and border tapering, lines 418-593).

Images (`cv::Mat`) are modelled as dense grids: a pair of dimensions together
with a total indexing function.  Float samples are modelled exactly with
rationals (reals only where a square root appears); 8-bit samples are
modelled as natural numbers, which is faithful because `edgeTaper` only moves
byte values around and compares them with 0, never performing arithmetic on
them.  C++ `int` arithmetic on scan coordinates is modelled with integers and
an explicit truncating division.
-/

namespace Deblur

/-- Dense 2-D sample grid: the model of a single-channel `cv::Mat`.
The indexing function is total; only indices below `rows`/`cols` are
meaningful. -/
@[ext]
structure Grid (α : Type) where
  rows : ℕ
  cols : ℕ
  data : ℕ → ℕ → α

/-- Build a rational grid from a list of rows (out-of-range samples are 0). -/
def gridOfLists (l : List (List ℚ)) : Grid ℚ :=
  ⟨l.length, (l.headD []).length, fun r c => ((l.getD r []).getD c 0)⟩

/-- Build a byte grid from a list of rows (out-of-range samples are 0). -/
def byteGridOfLists (l : List (List ℕ)) : Grid ℕ :=
  ⟨l.length, (l.headD []).length, fun r c => ((l.getD r []).getD c 0)⟩

/-! ## Shape-aware convolution: `conv2` (utils.cpp lines 63-140) -/

/-- The `ConvShape` enumeration of `deconv.hpp` (`FULL`, `SAME`, `VALID`). -/
inductive ConvShape where
  | FULL : ConvShape
  | SAME : ConvShape
  | VALID : ConvShape

/-- OpenCV `BORDER_REFLECT_101` index mapping, for the index ranges reachable
from `filter2D` with anchor `(0,0)`: indices are never negative and exceed the
length by at most `len - 2`, so one reflection step `2*len - 2 - n` suffices. -/
def reflect101 (n len : ℕ) : ℕ :=
  if n < len then n else 2 * len - 2 - n

/-- Model of `conv2` (utils.cpp lines 63-140).

Steps, exactly as the source:
1. `padSizeX = kernel.cols - 1`, `padSizeY = kernel.rows - 1`;
2. `copyMakeBorder(src, zeroPadded, padSizeY, padSizeY, padSizeX, padSizeX, BORDER_CONSTANT, 0)`;
3. `flip(kernel, fkernel, -1)` (both axes);
4. `filter2D(zeroPadded, tmp, -1, fkernel, anchor = (0,0))`: a correlation
   with the flipped kernel, reading out-of-range samples through the default
   `BORDER_REFLECT_101` rule;
5. crop `tmp` according to the shape, with the offsets of the source
   (`Rect(0,0,..)` for `FULL`, the centered `(+1)`-biased offsets for `SAME`,
   the centered offsets with the valid size for `VALID`). -/
def conv2 (src kernel : Grid ℚ) (shape : ConvShape) : Grid ℚ :=
  let padX := kernel.cols - 1
  let padY := kernel.rows - 1
  let zpRows := src.rows + 2 * padY
  let zpCols := src.cols + 2 * padX
  let zp : ℕ → ℕ → ℚ := fun r c =>
    if padY ≤ r ∧ r < padY + src.rows ∧ padX ≤ c ∧ c < padX + src.cols then
      src.data (r - padY) (c - padX)
    else 0
  let fk : ℕ → ℕ → ℚ := fun i j => kernel.data (kernel.rows - 1 - i) (kernel.cols - 1 - j)
  let tmp : ℕ → ℕ → ℚ := fun y x =>
    ∑ i ∈ Finset.range kernel.rows, ∑ j ∈ Finset.range kernel.cols,
      fk i j * zp (reflect101 (y + i) zpRows) (reflect101 (x + j) zpCols)
  match shape with
  | ConvShape.FULL =>
      ⟨zpRows - padY, zpCols - padX, fun y x => tmp y x⟩
  | ConvShape.SAME =>
      ⟨src.rows, src.cols, fun y x =>
        tmp (y + (zpRows - padY - src.rows + 1) / 2) (x + (zpCols - padX - src.cols + 1) / 2)⟩
  | ConvShape.VALID =>
      let w := src.cols - kernel.cols + 1
      let h := src.rows - kernel.rows + 1
      ⟨h, w, fun y x => tmp (y + (zpRows - padY - h) / 2) (x + (zpCols - padX - w) / 2)⟩

/-! ## Masked normalized cross-correlation: `crossCorrelation` (utils.cpp lines 10-61) -/

/-- The mask value actually consulted by the loop: when no mask is supplied
the code builds `region = Mat::ones(X.size(), CV_8U)`, so every sample reads
as 1; otherwise the supplied byte mask is read. -/
def maskVal (mask : Option (Grid ℕ)) (r c : ℕ) : ℕ :=
  match mask with
  | none => 1
  | some m => m.data r c

/-- The set of mask-active positions of an `R×C` grid. -/
def activeCells (R C : ℕ) (mask : Option (Grid ℕ)) : Finset (ℕ × ℕ) :=
  (Finset.range R ×ˢ Finset.range C).filter (fun p => 0 < maskVal mask p.1 p.2)

/-- Model of the external `cv::mean(G, mask)` call: the arithmetic mean of
the samples at mask-active positions.  OpenCV returns 0 when no position is
active; rational division by zero is 0, so the plain quotient is faithful. -/
def ccMean (G : Grid ℚ) (mask : Option (Grid ℕ)) : ℚ :=
  (∑ p ∈ activeCells G.rows G.cols mask, G.data p.1 p.2) /
    ((activeCells G.rows G.cols mask).card : ℚ)

/-- The accumulation loop of `crossCorrelation` (utils.cpp lines 40-55): a
row-major scan that, at every mask-active pixel, adds `valueX*valueY` to `E`
and the squares to the two deviation accumulators. -/
def ccSums (X Y : Grid ℚ) (mask : Option (Grid ℕ)) : ℚ × ℚ × ℚ :=
  let meanX := ccMean X mask
  let meanY := ccMean Y mask
  (List.range X.rows).foldl (fun acc row =>
    (List.range X.cols).foldl (fun acc col =>
      if 0 < maskVal mask row col then
        let valueX := X.data row col - meanX
        let valueY := Y.data row col - meanY
        (acc.1 + valueX * valueY, acc.2.1 + valueX * valueX, acc.2.2 + valueY * valueY)
      else acc) acc) (0, 0, 0)

/-- Model of `crossCorrelation` (utils.cpp lines 10-61): after the loop the
two deviation accumulators are square-rooted (without dividing by the sample
count) and the result is `E / (deviationX * deviationY)`. -/
noncomputable def crossCorrelation (X Y : Grid ℚ) (mask : Option (Grid ℕ)) : ℝ :=
  ((ccSums X Y mask).1 : ℝ) /
    (Real.sqrt ((ccSums X Y mask).2.1 : ℝ) * Real.sqrt ((ccSums X Y mask).2.2 : ℝ))

/-! Spec-side definitions for claim C2, written from the specification text:
`E = Σ (x-μX)(y-μY)`, `DX = sqrt(Σ (x-μX)²)`, `DY = sqrt(Σ (y-μY)²)` over the
active samples, result `E / (DX · DY)`. -/

/-- Spec-side masked covariance sum `E` over the active samples. -/
def specE (X Y : Grid ℚ) (mask : Option (Grid ℕ)) : ℚ :=
  ∑ p ∈ activeCells X.rows X.cols mask,
    (X.data p.1 p.2 - ccMean X mask) * (Y.data p.1 p.2 - ccMean Y mask)

/-- Spec-side unnormalized squared deviation sum `Σ (x-μ)²` of one grid over
its active samples (not divided by the sample count). -/
def specDev2 (G : Grid ℚ) (mask : Option (Grid ℕ)) : ℚ :=
  ∑ p ∈ activeCells G.rows G.cols mask, (G.data p.1 p.2 - ccMean G mask) ^ 2

/-! ## Claim C7: perfect correlation and anti-correlation -/

/-- The pointwise negation of a grid (the grid `-X`). -/
def negGrid (X : Grid ℚ) : Grid ℚ :=
  ⟨X.rows, X.cols, fun r c => -(X.data r c)⟩

/-! ## Claim C8: degenerate inputs are not guarded -/

/-- The degenerate 1×1 grid whose single sample is 5: all active samples are
identical, so the deviation is zero. -/
def constGrid : Grid ℚ := gridOfLists [[5]]

/-- Minimum sample of a grid, modelling the external `minMaxLoc` (the fold
starts from the top-left sample; meaningful for nonempty grids). -/
def gridMin (g : Grid ℚ) : ℚ :=
  ((List.range g.rows).flatMap fun r => (List.range g.cols).map fun c => g.data r c).foldl
    min (g.data 0 0)

/-- Maximum sample of a grid, modelling the external `minMaxLoc`. -/
def gridMax (g : Grid ℚ) : ℚ :=
  ((List.range g.rows).flatMap fun r => (List.range g.cols).map fun c => g.data r c).foldl
    max (g.data 0 0)

/-- Model of `normalizeOne` (utils.cpp lines 370-387) in the single-channel
case: `scale = max(|min|, |max|)` and then the external
`cv::normalize(src, dst, min/scale, max/scale, NORM_MINMAX)`, whose
documented semantics is the affine map sending `min ↦ alpha`, `max ↦ beta`:
`dst = (src - min) * (beta - alpha) / (max - min) + alpha`.  The division is
by the dynamic range `max - min` and nothing guards `max = min`. -/
def normalizeOne (src : Grid ℚ) : Grid ℚ :=
  ⟨src.rows, src.cols, fun r c =>
    (src.data r c - gridMin src) *
        (gridMax src / max |gridMin src| |gridMax src| -
         gridMin src / max |gridMin src| |gridMax src|) /
        (gridMax src - gridMin src) +
      gridMin src / max |gridMin src| |gridMax src|⟩

/-! ## Claim C9: `swapQuadrants` is an involution -/

/-- Model of `swapQuadrants` (utils.cpp lines 326-344): with `cx = cols/2`
and `cy = rows/2`, the four `cx×cy` corner regions are swapped pairwise
(top-left ↔ bottom-right, top-right ↔ bottom-left); any middle row/column of
an odd-sized grid is untouched. -/
def swapQuadrants {α : Type} (image : Grid α) : Grid α :=
  ⟨image.rows, image.cols, fun r c =>
    if r < image.rows / 2 ∧ c < image.cols / 2 then
      image.data (r + image.rows / 2) (c + image.cols / 2)
    else if r < image.rows / 2 ∧ image.cols / 2 ≤ c ∧ c < image.cols / 2 + image.cols / 2 then
      image.data (r + image.rows / 2) (c - image.cols / 2)
    else if image.rows / 2 ≤ r ∧ r < image.rows / 2 + image.rows / 2 ∧ c < image.cols / 2 then
      image.data (r - image.rows / 2) (c + image.cols / 2)
    else if image.rows / 2 ≤ r ∧ r < image.rows / 2 + image.rows / 2 ∧
        image.cols / 2 ≤ c ∧ c < image.cols / 2 + image.cols / 2 then
      image.data (r - image.rows / 2) (c - image.cols / 2)
    else
      image.data r c⟩

/-! ## Edge tapering: `fillPixel` and `edgeTaper` (utils.cpp lines 418-593)

The three fill scans of `edgeTaper` share one state shape: the output buffer
being written, the current fill color `left`, and the start point of the
currently open run (`Point(-1,-1)` in C++, modelled as `none`).  Scan
coordinates are C++ `int`s; the midpoint computation divides by 2 with C++
truncating division, modelled explicitly on `ℤ`. -/

/-- C++ `int` division by 2: truncation toward zero. -/
def cdiv2 (a : ℤ) : ℤ :=
  if 0 ≤ a then ((a.toNat / 2 : ℕ) : ℤ) else -(((-a).toNat / 2 : ℕ) : ℤ)

/-- The midpoint coordinate `cur - (cur - start) / 2` of a detected region
(used for both the x and the y component of `end`). -/
def endCoord (cur s : ℕ) : ℤ := (cur : ℤ) - cdiv2 ((cur : ℤ) - (s : ℤ))

/-- Model of `fillPixel` (utils.cpp lines 418-424): write `color` to every
pixel of the closed rectangle from `(sx, sy)` to `(ex, ey)`; when a bound is
inverted the loop body never runs and the buffer is unchanged. -/
def fillPixel (out : ℕ → ℕ → ℕ) (sx sy ex ey : ℤ) (color : ℕ) : ℕ → ℕ → ℕ :=
  fun r c =>
    if sy ≤ (r : ℤ) ∧ (r : ℤ) ≤ ey ∧ sx ≤ (c : ℤ) ∧ (c : ℤ) ≤ ex then color else out r c

/-- State of one edge-taper scan: output buffer, current fill color, and the
start point of the open run (stored as `(x, y)` like `cv::Point`). -/
structure TState where
  out : ℕ → ℕ → ℕ
  left : ℕ
  start : Option (ℕ × ℕ)

/-- One iteration of the horizontal fill scan of `edgeTaper`
(utils.cpp lines 441-482) at pixel `(row, col)` of an image with `C`
columns.  Reads the source buffer, writes the separate output buffer. -/
def hStep (src : ℕ → ℕ → ℕ) (C : ℕ) (row col : ℕ) (st : TState) : TState :=
  let value := src row col
  match st.start with
  | some (sx, sy) =>
      if 0 < value ∨ col = C - 1 then
        let ex := endCoord col sx
        let ey := endCoord row sy
        let lf := if sx = 0 then value else st.left
        let o1 := fillPixel st.out (sx : ℤ) (sy : ℤ) ex ey lf
        let v2 := if col = C - 1 then lf else value
        let o2 := fillPixel o1 ex ey (col : ℤ) (row : ℤ) v2
        ⟨o2, lf, none⟩
      else st
  | none =>
      if value = 0 then
        ⟨st.out, if 0 < col then src row (col - 1) else 0, some (col, row)⟩
      else st

/-- Scan columns `c0, c0+1, …, c0+n-1` of one row of the horizontal pass. -/
def scanCols (src : ℕ → ℕ → ℕ) (C : ℕ) (row c0 n : ℕ) (st : TState) : TState :=
  (List.range' c0 n).foldl (fun st col => hStep src C row col st) st

/-- Scan rows `r0, …, r0+n-1` (each row over all `C` columns) of the
horizontal pass. -/
def scanRows (src : ℕ → ℕ → ℕ) (C : ℕ) (r0 n : ℕ) (st : TState) : TState :=
  (List.range' r0 n).foldl (fun st row => scanCols src C row 0 C st) st

/-- The full horizontal fill pass of `edgeTaper` (utils.cpp lines 430-482):
the output starts as a copy of `src`, `left = 0`, no open run, and the image
is scanned row-major. -/
def hPass (img : Grid ℕ) : Grid ℕ :=
  ⟨img.rows, img.cols, (scanRows img.data img.cols 0 img.rows ⟨img.data, 0, none⟩).out⟩

/-- One iteration of the vertical fill scan (utils.cpp lines 491-532): the
transposed algorithm — runs are tracked down a column, the region closes on a
nonzero pixel or at the last row, and the border tests use `start.y`/`row`. -/
def vStep (src : ℕ → ℕ → ℕ) (R : ℕ) (col row : ℕ) (st : TState) : TState :=
  let value := src row col
  match st.start with
  | some (sx, sy) =>
      if 0 < value ∨ row = R - 1 then
        let ex := endCoord col sx
        let ey := endCoord row sy
        let lf := if sy = 0 then value else st.left
        let o1 := fillPixel st.out (sx : ℤ) (sy : ℤ) ex ey lf
        let v2 := if row = R - 1 then lf else value
        let o2 := fillPixel o1 ex ey (col : ℤ) (row : ℤ) v2
        ⟨o2, lf, none⟩
      else st
  | none =>
      if value = 0 then
        ⟨st.out, if 0 < row then src (row - 1) col else 0, some (col, row)⟩
      else st

/-- Scan rows `r0, …, r0+n-1` of one column of the vertical pass. -/
def vScanRows (src : ℕ → ℕ → ℕ) (R : ℕ) (col r0 n : ℕ) (st : TState) : TState :=
  (List.range' r0 n).foldl (fun st row => vStep src R col row st) st

/-- Scan columns `c0, …, c0+n-1` (each over all `R` rows) of the vertical
pass. -/
def vScanCols (src : ℕ → ℕ → ℕ) (R : ℕ) (c0 n : ℕ) (st : TState) : TState :=
  (List.range' c0 n).foldl (fun st col => vScanRows src R col 0 R st) st

/-- The full vertical fill pass of `edgeTaper` (utils.cpp lines 484-532). -/
def vPass (img : Grid ℕ) : Grid ℕ :=
  ⟨img.rows, img.cols, (vScanCols img.data img.rows 0 img.cols ⟨img.data, 0, none⟩).out⟩

/-- One iteration of the third, mask-driven fill scan
(utils.cpp lines 542-584): runs are the regions where the mask is active,
they close where the mask becomes 0 or at the last column, and the pixel
values are read from the buffer being written (`dst`), in place. -/
def mStep (mask : ℕ → ℕ → ℕ) (C : ℕ) (row col : ℕ) (st : TState) : TState :=
  let value := st.out row col
  match st.start with
  | some (sx, sy) =>
      if mask row col = 0 ∨ col = C - 1 then
        let ex := endCoord col sx
        let ey := endCoord row sy
        let lf := if sx = 0 then value else st.left
        let o1 := fillPixel st.out (sx : ℤ) (sy : ℤ) ex ey lf
        let v2 := if col = C - 1 then lf else value
        let o2 := fillPixel o1 ex ey (col : ℤ) (row : ℤ) v2
        ⟨o2, lf, none⟩
      else st
  | none =>
      if 0 < mask row col then
        ⟨st.out, if 0 < col then st.out row (col - 1) else 0, some (col, row)⟩
      else st

/-- The full mask-driven fill pass over a buffer of the given dimensions. -/
def maskPass (mask : Grid ℕ) (d : Grid ℕ) : Grid ℕ :=
  ⟨d.rows, d.cols,
    ((List.range' 0 d.rows).foldl (fun st row =>
      (List.range' 0 d.cols).foldl (fun st col => mStep mask.data d.cols row col st) st)
      ⟨d.data, 0, none⟩).out⟩

/-- Model of `edgeTaper` (utils.cpp lines 427-593).  The two `addWeighted`
blends and the two `GaussianBlur` convolutions are external OpenCV routines
operating with float rounding; they are taken as parameters (`avg1` is the
0.5/0.5 blend, `avg2` the 0.7/0.3 blend, `blur19`/`blur51` the 19×19 and
51×51 Gaussian blurs), which only strengthens the statements proved about
the function.  The final `src.copyTo(dst, mask)` writes the original source
pixel wherever the mask is nonzero. -/
def edgeTaper (avg1 avg2 : ℕ → ℕ → ℕ) (blur19 blur51 : Grid ℕ → Grid ℕ)
    (src mask image : Grid ℕ) : Grid ℕ :=
  let th := hPass src
  let tv := vPass src
  let blended : Grid ℕ := ⟨src.rows, src.cols, fun r c => avg1 (th.data r c) (tv.data r c)⟩
  let filled := maskPass mask blended
  let ig := blur19 image
  let mixed : Grid ℕ := ⟨src.rows, src.cols, fun r c => avg2 (filled.data r c) (ig.data r c)⟩
  let blurred := blur51 mixed
  ⟨src.rows, src.cols, fun r c =>
    if 0 < mask.data r c then src.data r c else blurred.data r c⟩

/-! ## Claim C1: output sizes of `conv2` -/

/-- C1: for a source of size `r×c` and a kernel of size `kh×kw` with
`kh, kw ≥ 1` (and `kh ≤ r`, `kw ≤ c` for the `VALID` case), `conv2` returns a
grid of size `(r+kh-1)×(c+kw-1)` under `FULL`, `r×c` under `SAME`, and
`(r-kh+1)×(c-kw+1)` under `VALID`. -/
theorem conv2_output_sizes (src kernel : Grid ℚ)
    (hkh : 1 ≤ kernel.rows) (hkw : 1 ≤ kernel.cols) :
    ((conv2 src kernel ConvShape.FULL).rows = src.rows + kernel.rows - 1 ∧
     (conv2 src kernel ConvShape.FULL).cols = src.cols + kernel.cols - 1) ∧
    ((conv2 src kernel ConvShape.SAME).rows = src.rows ∧
     (conv2 src kernel ConvShape.SAME).cols = src.cols) ∧
    (kernel.rows ≤ src.rows → kernel.cols ≤ src.cols →
     (conv2 src kernel ConvShape.VALID).rows = src.rows - kernel.rows + 1 ∧
     (conv2 src kernel ConvShape.VALID).cols = src.cols - kernel.cols + 1) := by
  refine ⟨⟨?_, ?_⟩, ⟨rfl, rfl⟩, fun _ _ => ⟨rfl, rfl⟩⟩ <;> simp only [conv2] <;> omega

/-- Witness for C1 at a concrete input: the 3×4 source and 1×3 kernel used by
the debugging routine `test` in utils.cpp. -/
theorem conv2_output_sizes_witness :
    (1 ≤ (gridOfLists [[3/10, 0, 7/10]]).rows ∧
     (gridOfLists [[3/10, 0, 7/10]]).rows ≤ (gridOfLists [[1,2,3,4],[1,2,3,4],[1,2,3,4]]).rows) ∧
    (conv2 (gridOfLists [[1,2,3,4],[1,2,3,4],[1,2,3,4]]) (gridOfLists [[3/10, 0, 7/10]])
      ConvShape.FULL).cols = 6 := by
  have h := conv2_output_sizes (gridOfLists [[1,2,3,4],[1,2,3,4],[1,2,3,4]])
    (gridOfLists [[3/10, 0, 7/10]]) (by simp [gridOfLists]) (by simp [gridOfLists])
  exact ⟨⟨by simp [gridOfLists], by simp [gridOfLists]⟩, by rw [h.1.2]; simp [gridOfLists]⟩

/-! ## Claim C3: concrete VALID and FULL convolution values -/

set_option maxHeartbeats 2000000 in
/-- C3: for the 1×4 source row `[1,2,3,4]` and the 1×3 kernel
`[0.5, 0, 0.5]`, `conv2` with `VALID` returns exactly the 1×2 row `[2,3]`,
and with `FULL` a 1×6 row `[0.5, 1, 2, 3, 1.5, 2]` — the values of the
zero-padded linear convolution including the boundary contributions. -/
theorem conv2_example_valid_full :
    ((conv2 (gridOfLists [[1,2,3,4]]) (gridOfLists [[1/2, 0, 1/2]]) ConvShape.VALID).rows = 1 ∧
     (conv2 (gridOfLists [[1,2,3,4]]) (gridOfLists [[1/2, 0, 1/2]]) ConvShape.VALID).cols = 2 ∧
     (conv2 (gridOfLists [[1,2,3,4]]) (gridOfLists [[1/2, 0, 1/2]]) ConvShape.VALID).data 0 0 = 2 ∧
     (conv2 (gridOfLists [[1,2,3,4]]) (gridOfLists [[1/2, 0, 1/2]]) ConvShape.VALID).data 0 1 = 3) ∧
    ((conv2 (gridOfLists [[1,2,3,4]]) (gridOfLists [[1/2, 0, 1/2]]) ConvShape.FULL).rows = 1 ∧
     (conv2 (gridOfLists [[1,2,3,4]]) (gridOfLists [[1/2, 0, 1/2]]) ConvShape.FULL).cols = 6 ∧
     (conv2 (gridOfLists [[1,2,3,4]]) (gridOfLists [[1/2, 0, 1/2]]) ConvShape.FULL).data 0 0 = 1/2 ∧
     (conv2 (gridOfLists [[1,2,3,4]]) (gridOfLists [[1/2, 0, 1/2]]) ConvShape.FULL).data 0 1 = 1 ∧
     (conv2 (gridOfLists [[1,2,3,4]]) (gridOfLists [[1/2, 0, 1/2]]) ConvShape.FULL).data 0 2 = 2 ∧
     (conv2 (gridOfLists [[1,2,3,4]]) (gridOfLists [[1/2, 0, 1/2]]) ConvShape.FULL).data 0 3 = 3 ∧
     (conv2 (gridOfLists [[1,2,3,4]]) (gridOfLists [[1/2, 0, 1/2]]) ConvShape.FULL).data 0 4 = 3/2 ∧
     (conv2 (gridOfLists [[1,2,3,4]]) (gridOfLists [[1/2, 0, 1/2]]) ConvShape.FULL).data 0 5 = 2) := by
  refine ⟨⟨?_, ?_, ?_, ?_⟩, ?_, ?_, ?_, ?_, ?_, ?_, ?_, ?_⟩ <;>
    norm_num [conv2, gridOfLists, reflect101, Finset.sum_range_succ]

/-! Helper lemmas converting the accumulation loop into closed sums. -/

/-- Folding an accumulating addition over a list is adding the list sum. -/
lemma foldl_add_eq {M : Type} [AddCommMonoid M] (f : ℕ → M) (l : List ℕ) (a : M) :
    l.foldl (fun x i => x + f i) a = a + (l.map f).sum := by
  induction l generalizing a with
  | nil => simp
  | cons b t ih => simp [ih, add_assoc]

/-- A list sum over `List.range` is the corresponding `Finset.range` sum. -/
lemma list_range_map_sum {M : Type} [AddCommMonoid M] (f : ℕ → M) (n : ℕ) :
    ((List.range n).map f).sum = ∑ i ∈ Finset.range n, f i := by
  induction n with
  | zero => simp
  | succ k ih => simp [List.range_succ, Finset.sum_range_succ, ih]

/-- A sum of triples is the triple of sums. -/
lemma sum_triple_split (s : Finset ℕ) (f g h : ℕ → ℚ) :
    (∑ i ∈ s, ((f i, g i, h i) : ℚ × ℚ × ℚ)) = (∑ i ∈ s, f i, ∑ i ∈ s, g i, ∑ i ∈ s, h i) := by
  induction s using Finset.cons_induction with
  | empty => simp
  | cons a t ha ih =>
      rw [Finset.sum_cons, ih]
      simp [Finset.sum_cons, Finset.sum_insert ha, Prod.ext_iff]

/-- A sum over the active cells is a double if-guarded sum over all indices. -/
lemma sum_activeCells_eq (R C : ℕ) (mask : Option (Grid ℕ)) (F : ℕ → ℕ → ℚ) :
    (∑ p ∈ activeCells R C mask, F p.1 p.2) =
      ∑ r ∈ Finset.range R, ∑ c ∈ Finset.range C,
        if 0 < maskVal mask r c then F r c else 0 := by
  rw [activeCells, Finset.sum_filter, Finset.sum_product]

/-- The accumulation loop of `crossCorrelation` computes exactly the three
closed sums `E`, `Σ (x-μX)²`, `Σ (y-μY)²` over the active samples. -/
lemma ccSums_eq (X Y : Grid ℚ) (mask : Option (Grid ℕ)) :
    ccSums X Y mask =
      (specE X Y mask,
       ∑ p ∈ activeCells X.rows X.cols mask, (X.data p.1 p.2 - ccMean X mask) ^ 2,
       ∑ p ∈ activeCells X.rows X.cols mask, (Y.data p.1 p.2 - ccMean Y mask) ^ 2) := by
  classical
  set μX := ccMean X mask with hμX
  set μY := ccMean Y mask with hμY
  have hstep : ∀ row : ℕ, ∀ acc : ℚ × ℚ × ℚ,
      (List.range X.cols).foldl (fun acc col =>
        if 0 < maskVal mask row col then
          ((acc.1 + (X.data row col - μX) * (Y.data row col - μY),
            acc.2.1 + (X.data row col - μX) * (X.data row col - μX),
            acc.2.2 + (Y.data row col - μY) * (Y.data row col - μY)) : ℚ × ℚ × ℚ)
        else acc) acc =
      acc + ∑ c ∈ Finset.range X.cols,
        (if 0 < maskVal mask row c then
          (((X.data row c - μX) * (Y.data row c - μY),
            (X.data row c - μX) * (X.data row c - μX),
            (Y.data row c - μY) * (Y.data row c - μY)) : ℚ × ℚ × ℚ)
         else 0) := by
    intro row acc
    have hfun : (fun (acc : ℚ × ℚ × ℚ) col =>
        if 0 < maskVal mask row col then
          ((acc.1 + (X.data row col - μX) * (Y.data row col - μY),
            acc.2.1 + (X.data row col - μX) * (X.data row col - μX),
            acc.2.2 + (Y.data row col - μY) * (Y.data row col - μY)) : ℚ × ℚ × ℚ)
        else acc) =
        (fun acc col => acc +
          (if 0 < maskVal mask row col then
            (((X.data row col - μX) * (Y.data row col - μY),
              (X.data row col - μX) * (X.data row col - μX),
              (Y.data row col - μY) * (Y.data row col - μY)) : ℚ × ℚ × ℚ)
           else 0)) := by
      funext acc col
      by_cases h : 0 < maskVal mask row col <;> simp [h, Prod.ext_iff]
    rw [hfun, foldl_add_eq, list_range_map_sum]
  have houter :
      ccSums X Y mask =
        (0 : ℚ × ℚ × ℚ) + ∑ r ∈ Finset.range X.rows, ∑ c ∈ Finset.range X.cols,
          (if 0 < maskVal mask r c then
            (((X.data r c - μX) * (Y.data r c - μY),
              (X.data r c - μX) * (X.data r c - μX),
              (Y.data r c - μY) * (Y.data r c - μY)) : ℚ × ℚ × ℚ)
           else 0) := by
    rw [ccSums]
    have hfun2 : (fun (acc : ℚ × ℚ × ℚ) row =>
        (List.range X.cols).foldl (fun acc col =>
          if 0 < maskVal mask row col then
            ((acc.1 + (X.data row col - μX) * (Y.data row col - μY),
              acc.2.1 + (X.data row col - μX) * (X.data row col - μX),
              acc.2.2 + (Y.data row col - μY) * (Y.data row col - μY)) : ℚ × ℚ × ℚ)
          else acc) acc) =
        (fun acc row => acc + ∑ c ∈ Finset.range X.cols,
          (if 0 < maskVal mask row c then
            (((X.data row c - μX) * (Y.data row c - μY),
              (X.data row c - μX) * (X.data row c - μX),
              (Y.data row c - μY) * (Y.data row c - μY)) : ℚ × ℚ × ℚ)
           else 0)) := by
      funext acc row
      exact hstep row acc
    rw [hfun2, foldl_add_eq, list_range_map_sum]
    rfl
  rw [houter]
  have hsplit : ∀ r : ℕ, (∑ c ∈ Finset.range X.cols,
      (if 0 < maskVal mask r c then
        (((X.data r c - μX) * (Y.data r c - μY),
          (X.data r c - μX) * (X.data r c - μX),
          (Y.data r c - μY) * (Y.data r c - μY)) : ℚ × ℚ × ℚ)
       else 0)) =
      ((∑ c ∈ Finset.range X.cols, if 0 < maskVal mask r c then (X.data r c - μX) * (Y.data r c - μY) else 0),
       (∑ c ∈ Finset.range X.cols, if 0 < maskVal mask r c then (X.data r c - μX) * (X.data r c - μX) else 0),
       (∑ c ∈ Finset.range X.cols, if 0 < maskVal mask r c then (Y.data r c - μY) * (Y.data r c - μY) else 0)) := by
    intro r
    rw [show (fun c => (if 0 < maskVal mask r c then
        (((X.data r c - μX) * (Y.data r c - μY),
          (X.data r c - μX) * (X.data r c - μX),
          (Y.data r c - μY) * (Y.data r c - μY)) : ℚ × ℚ × ℚ)
       else 0)) = (fun c =>
        (((if 0 < maskVal mask r c then (X.data r c - μX) * (Y.data r c - μY) else 0),
          (if 0 < maskVal mask r c then (X.data r c - μX) * (X.data r c - μX) else 0),
          (if 0 < maskVal mask r c then (Y.data r c - μY) * (Y.data r c - μY) else 0)) : ℚ × ℚ × ℚ))
      from by funext c; by_cases h : 0 < maskVal mask r c <;> simp [h, Prod.ext_iff]]
    exact sum_triple_split _ _ _ _
  simp only [hsplit]
  rw [sum_triple_split, zero_add]
  have e1 := sum_activeCells_eq X.rows X.cols mask
    (fun a b => (X.data a b - μX) * (Y.data a b - μY))
  have e2 := sum_activeCells_eq X.rows X.cols mask
    (fun a b => (X.data a b - μX) * (X.data a b - μX))
  have e3 := sum_activeCells_eq X.rows X.cols mask
    (fun a b => (Y.data a b - μY) * (Y.data a b - μY))
  rw [← e1, ← e2, ← e3]
  simp [specE, Prod.ext_iff, pow_two]

/-! ## Claim C2: the value computed by `crossCorrelation` -/

/-- Shared form of the value computed by `crossCorrelation`: the loop sums
rewritten as the closed spec-side sums. -/
lemma crossCorrelation_eq (X Y : Grid ℚ) (mask : Option (Grid ℕ))
    (hr : X.rows = Y.rows) (hc : X.cols = Y.cols) :
    crossCorrelation X Y mask =
      (specE X Y mask : ℝ) /
        (Real.sqrt ((specDev2 X mask : ℚ) : ℝ) * Real.sqrt ((specDev2 Y mask : ℚ) : ℝ)) := by
  rw [crossCorrelation, ccSums_eq]
  have hX : (∑ p ∈ activeCells X.rows X.cols mask, (X.data p.1 p.2 - ccMean X mask) ^ 2) =
      specDev2 X mask := rfl
  have hY : (∑ p ∈ activeCells X.rows X.cols mask, (Y.data p.1 p.2 - ccMean Y mask) ^ 2) =
      specDev2 Y mask := by
    rw [specDev2, ← hr, ← hc]
  rw [hX, hY]

/-- C2: for grids of identical size and any mask (an absent mask meaning
every sample is active), `crossCorrelation` returns `E / (DX · DY)` where,
over the active samples, `μX` and `μY` are the masked means,
`E = Σ (x-μX)(y-μY)`, `DX = sqrt(Σ (x-μX)²)` and `DY = sqrt(Σ (y-μY)²)`,
the deviation sums being square-rooted without dividing by the active sample
count. -/
theorem crossCorrelation_formula (X Y : Grid ℚ) (mask : Option (Grid ℕ))
    (hr : X.rows = Y.rows) (hc : X.cols = Y.cols) :
    crossCorrelation X Y mask =
      (specE X Y mask : ℝ) /
        (Real.sqrt ((specDev2 X mask : ℚ) : ℝ) * Real.sqrt ((specDev2 Y mask : ℚ) : ℝ)) :=
  crossCorrelation_eq X Y mask hr hc

/-- Witness for C2: evaluated on the 1×2 grids `[1,2]` and `[3,5]` with no
mask. -/
theorem crossCorrelation_formula_witness :
    (gridOfLists [[1,2]]).rows = (gridOfLists [[3,5]]).rows ∧
    crossCorrelation (gridOfLists [[1,2]]) (gridOfLists [[3,5]]) none =
      ((specE (gridOfLists [[1,2]]) (gridOfLists [[3,5]]) none : ℚ) : ℝ) /
        (Real.sqrt ((specDev2 (gridOfLists [[1,2]]) none : ℚ) : ℝ) *
         Real.sqrt ((specDev2 (gridOfLists [[3,5]]) none : ℚ) : ℝ)) :=
  ⟨rfl, crossCorrelation_formula (gridOfLists [[1,2]]) (gridOfLists [[3,5]]) none rfl rfl⟩

/-- The spec-side squared deviation sum is a sum of squares. -/
lemma specDev2_nonneg (X : Grid ℚ) (mask : Option (Grid ℕ)) : 0 ≤ specDev2 X mask :=
  Finset.sum_nonneg fun _ _ => sq_nonneg _

/-- Correlating a grid with itself makes `E` equal to the squared deviation
sum. -/
lemma specE_self (X : Grid ℚ) (mask : Option (Grid ℕ)) :
    specE X X mask = specDev2 X mask := by
  simp [specE, specDev2, pow_two]

/-- The masked mean of `-X` is the negation of the masked mean of `X`. -/
lemma ccMean_neg (X : Grid ℚ) (mask : Option (Grid ℕ)) :
    ccMean (negGrid X) mask = -ccMean X mask := by
  rw [ccMean, ccMean]
  have : (∑ p ∈ activeCells (negGrid X).rows (negGrid X).cols mask, (negGrid X).data p.1 p.2) =
      -∑ p ∈ activeCells X.rows X.cols mask, X.data p.1 p.2 := by
    rw [show (negGrid X).rows = X.rows from rfl, show (negGrid X).cols = X.cols from rfl]
    rw [← Finset.sum_neg_distrib]
    rfl
  rw [this, show (negGrid X).rows = X.rows from rfl, show (negGrid X).cols = X.cols from rfl,
    neg_div]

/-- Correlating a grid with its negation negates `E` and preserves the
squared deviation sum. -/
lemma specE_neg (X : Grid ℚ) (mask : Option (Grid ℕ)) :
    specE X (negGrid X) mask = -specDev2 X mask ∧
    specDev2 (negGrid X) mask = specDev2 X mask := by
  constructor
  · rw [specE, specDev2, ← Finset.sum_neg_distrib]
    refine Finset.sum_congr rfl fun p _ => ?_
    rw [ccMean_neg]
    show (X.data p.1 p.2 - ccMean X mask) * (-(X.data p.1 p.2) - -ccMean X mask) = _
    ring
  · rw [specDev2, specDev2]
    refine Finset.sum_congr rfl fun p _ => ?_
    rw [ccMean_neg]
    show (-(X.data p.1 p.2) - -ccMean X mask) ^ 2 = _
    ring

/-- C7: for every real grid (and mask) whose active samples have nonzero
deviation, `crossCorrelation(X, X) = 1` and `crossCorrelation(X, -X) = -1`,
exactly, in the exact-arithmetic model. -/
theorem crossCorrelation_self_and_neg (X : Grid ℚ) (mask : Option (Grid ℕ))
    (hdev : specDev2 X mask ≠ 0) :
    crossCorrelation X X mask = 1 ∧ crossCorrelation X (negGrid X) mask = -1 := by
  have hpos : (0 : ℝ) < ((specDev2 X mask : ℚ) : ℝ) := by
    have h0 : (0 : ℚ) ≤ specDev2 X mask := specDev2_nonneg X mask
    have : (0 : ℚ) < specDev2 X mask := lt_of_le_of_ne h0 (Ne.symm hdev)
    exact_mod_cast this
  have hsqrt : Real.sqrt ((specDev2 X mask : ℚ) : ℝ) * Real.sqrt ((specDev2 X mask : ℚ) : ℝ) =
      ((specDev2 X mask : ℚ) : ℝ) :=
    Real.mul_self_sqrt (le_of_lt hpos)
  constructor
  · rw [crossCorrelation_eq X X mask rfl rfl, specE_self, hsqrt]
    exact div_self (ne_of_gt hpos)
  · rw [crossCorrelation_eq X (negGrid X) mask rfl rfl, (specE_neg X mask).1,
      (specE_neg X mask).2, hsqrt]
    push_cast
    rw [neg_div]
    rw [div_self (ne_of_gt hpos)]

/-- Witness for C7 at the 1×2 grid `[1,2]` with no mask: its deviation sum is
`1/2 ≠ 0`. -/
theorem crossCorrelation_self_and_neg_witness :
    specDev2 (gridOfLists [[1,2]]) none ≠ 0 ∧
    crossCorrelation (gridOfLists [[1,2]]) (gridOfLists [[1,2]]) none = 1 ∧
    crossCorrelation (gridOfLists [[1,2]]) (negGrid (gridOfLists [[1,2]])) none = -1 := by
  have ha : activeCells (gridOfLists [[1,2]]).rows (gridOfLists [[1,2]]).cols none =
      {(0,0), (0,1)} := by decide
  have hpair : (((0:ℕ),(0:ℕ)) : ℕ × ℕ) ≠ ((0:ℕ),(1:ℕ)) := by decide
  have hcard : ((({(0,0), (0,1)}) : Finset (ℕ × ℕ))).card = 2 := by decide
  have hmean : ccMean (gridOfLists [[1,2]]) none = 3/2 := by
    rw [ccMean, ha, Finset.sum_pair hpair, hcard]
    norm_num [gridOfLists]
  have hdev : specDev2 (gridOfLists [[1,2]]) none = 1/2 := by
    rw [specDev2, ha, Finset.sum_pair hpair, hmean]
    norm_num [gridOfLists]
  have h := crossCorrelation_self_and_neg (gridOfLists [[1,2]]) none (by rw [hdev]; norm_num)
  exact ⟨by rw [hdev]; norm_num, h.1, h.2⟩

/-- C8 (failing input): on the degenerate grid `[[5]]` — all active samples
identical — the deviation accumulator of `crossCorrelation` is 0, yet the
function performs its final division anyway and returns an ordinary value
(0 in the exact model of `E/(0·0)`; NaN in C++ floats) instead of reporting
a distinct error condition; likewise `normalizeOne` reaches zero dynamic
range `max - min = 0` and still produces ordinary sample values through its
unguarded rescale. -/
theorem degenerate_inputs_unguarded :
    (ccSums constGrid constGrid none).2.1 = 0 ∧
    crossCorrelation constGrid constGrid none = 0 ∧
    gridMax constGrid - gridMin constGrid = 0 ∧
    (normalizeOne constGrid).data 0 0 = 1 := by
  have ha : activeCells constGrid.rows constGrid.cols none = {(0,0)} := by decide
  have hmean : ccMean constGrid none = 5 := by
    rw [ccMean, ha, Finset.sum_singleton]
    norm_num [constGrid, gridOfLists]
  have hdev : specDev2 constGrid none = 0 := by
    rw [specDev2, ha, Finset.sum_singleton, hmean]
    norm_num [constGrid, gridOfLists]
  have hE : specE constGrid constGrid none = 0 := by rw [specE_self, hdev]
  refine ⟨?_, ?_, ?_, ?_⟩
  · rw [ccSums_eq]
    show specDev2 constGrid none = 0
    exact hdev
  · rw [crossCorrelation_eq constGrid constGrid none rfl rfl, hE, hdev]
    simp
  · show gridMax constGrid - gridMin constGrid = 0
    norm_num [gridMax, gridMin, constGrid, gridOfLists, List.range_succ]
  · show (5 - gridMin constGrid) * _ / (gridMax constGrid - gridMin constGrid) + _ = 1
    norm_num [gridMax, gridMin, constGrid, gridOfLists, List.range_succ]

/-- C9: applying `swapQuadrants` twice restores the grid. -/
theorem swapQuadrants_involution {α : Type} (image : Grid α) :
    swapQuadrants (swapQuadrants image) = image := by
  have hrows : (swapQuadrants image).rows = image.rows := rfl
  have hcols : (swapQuadrants image).cols = image.cols := rfl
  refine Grid.ext rfl rfl ?_
  funext r c
  show (swapQuadrants (swapQuadrants image)).data r c = image.data r c
  simp only [swapQuadrants]
  split_ifs <;>
    first
      | omega
      | rfl
      | exact congr_arg₂ image.data (by omega) (by omega)

/-! ## Claim C6: pixels inside the mask are returned bit-identical -/

/-- C6: for every source, same-size mask and guide image, every pixel at
which the mask is active in the final output of `edgeTaper` is bit-identical
to the corresponding source pixel, regardless of the fill, blend and blur
stages (the blends and blurs are universally quantified). -/
theorem edgeTaper_restores_masked_pixels
    (avg1 avg2 : ℕ → ℕ → ℕ) (blur19 blur51 : Grid ℕ → Grid ℕ)
    (src mask image : Grid ℕ) (r c : ℕ)
    (hr : r < src.rows) (hc : c < src.cols) (hm : 0 < mask.data r c) :
    (edgeTaper avg1 avg2 blur19 blur51 src mask image).data r c = src.data r c := by
  simp [edgeTaper, hm]

/-- Witness for C6 on a concrete 2×2 image, with truncating-average blends
and identity blurs. -/
theorem edgeTaper_restores_masked_pixels_witness :
    0 < (byteGridOfLists [[1,0],[0,1]]).data 0 0 ∧
    (edgeTaper (fun a b => (a + b) / 2) (fun a b => (7 * a + 3 * b) / 10) id id
      (byteGridOfLists [[7,0],[0,3]]) (byteGridOfLists [[1,0],[0,1]])
      (byteGridOfLists [[9,9],[9,9]])).data 0 0 = (byteGridOfLists [[7,0],[0,3]]).data 0 0 :=
  ⟨by decide,
   edgeTaper_restores_masked_pixels (fun a b => (a + b) / 2) (fun a b => (7 * a + 3 * b) / 10)
     id id (byteGridOfLists [[7,0],[0,3]]) (byteGridOfLists [[1,0],[0,1]])
     (byteGridOfLists [[9,9],[9,9]]) 0 0 (by decide) (by decide) (by decide)⟩

/-! ## Claim C4 counterexample computations -/

/-- C4 (counterexample): on the single row `[5,0,0,9,7,0,0,8]` the
horizontal pass produces `[5,5,9,9,7,7,7,7]`.  The claim predicts `5` at
column 2 (its midpoint `m = e - (e-s)/2` assigns the odd-length run
`[1,2]`'s midpoint to the left half) and `8` at column 7 (a pixel not in the
run), but the code gives the midpoint of an odd-length run to the right-hand
fill and overwrites a terminator in the last column with the left fill
value.  On the spec's own example row `[5,0,0,0,9]` the pass returns
`[5,5,5,5,5]`, not a `[3]`-block filled with 9. -/
theorem hPass_midpoint_counterexample :
    (hPass (byteGridOfLists [[5,0,0,9,7,0,0,8]])).data 0 2 = 9 ∧
    ¬ (hPass (byteGridOfLists [[5,0,0,9,7,0,0,8]])).data 0 2 = 5 ∧
    (hPass (byteGridOfLists [[5,0,0,9,7,0,0,8]])).data 0 7 = 7 ∧
    ¬ (hPass (byteGridOfLists [[5,0,0,9,7,0,0,8]])).data 0 7 = 8 ∧
    (hPass (byteGridOfLists [[5,0,0,0,9]])).data 0 3 = 5 ∧
    ¬ (hPass (byteGridOfLists [[5,0,0,0,9]])).data 0 3 = 9 := by
  decide

/-- C5 (counterexample): on the single row `[0,0,7]` the zero run starts at
column 0 and is terminated by the nonzero pixel 7; the claim predicts that
its first half (columns 0 and 1) is filled with 0, but the code sets the
left fill color to the terminating pixel's value and produces `[7,7,7]`. -/
theorem hPass_left_border_counterexample :
    (hPass (byteGridOfLists [[0,0,7]])).data 0 0 = 7 ∧
    ¬ (hPass (byteGridOfLists [[0,0,7]])).data 0 0 = 0 ∧
    (hPass (byteGridOfLists [[0,0,7]])).data 0 1 = 7 := by
  decide

/-! ## Machinery for the horizontal-pass theorems (claims C4, C5, C10)

The lemmas below characterize the row-major scan of the horizontal pass.
Throughout, `src` is the source buffer being read and `C` the number of
columns of the image. -/

section HPassLemmas

variable (src : ℕ → ℕ → ℕ) (C : ℕ)

/-- Unfolding `endCoord` to natural-number arithmetic, by the sign of
`cur - s`. -/
lemma endCoord_eq (cur s : ℕ) :
    endCoord cur s =
      if s ≤ cur then ((cur - (cur - s) / 2 : ℕ) : ℤ) else ((cur + (s - cur) / 2 : ℕ) : ℤ) := by
  unfold endCoord cdiv2
  split_ifs <;> omega

/-- The midpoint of a one-pixel-tall region is its own row. -/
lemma endCoord_self (cur : ℕ) : endCoord cur cur = (cur : ℤ) := by
  rw [endCoord_eq]
  simp

/-- The midpoint coordinate from the previous row is the current row. -/
lemma endCoord_pred (r : ℕ) (h : 1 ≤ r) : endCoord r (r - 1) = (r : ℤ) := by
  rw [endCoord_eq]
  have : r - (r - (r - 1)) / 2 = r := by omega
  simp [Nat.sub_le, this]

/-- An empty column scan is the identity. -/
lemma scanCols_zero (row c0 : ℕ) (st : TState) : scanCols src C row c0 0 st = st := rfl

/-- A column scan peels its first column. -/
lemma scanCols_succ (row c0 n : ℕ) (st : TState) :
    scanCols src C row c0 (n + 1) st =
      scanCols src C row (c0 + 1) n (hStep src C row c0 st) := by
  unfold scanCols
  rw [List.range'_succ]
  rfl

/-- A column scan splits at an intermediate column. -/
lemma scanCols_split (row c0 m n : ℕ) (st : TState) :
    scanCols src C row c0 (m + n) st =
      scanCols src C row (c0 + m) n (scanCols src C row c0 m st) := by
  unfold scanCols
  rw [← List.foldl_append]
  congr 1
  have h := List.range'_append c0 m n 1
  simp only [one_mul] at h
  rw [Nat.add_comm m n, ← h]

/-- An empty row scan is the identity. -/
lemma scanRows_zero (r0 : ℕ) (st : TState) : scanRows src C r0 0 st = st := rfl

/-- A row scan peels its first row. -/
lemma scanRows_succ (r0 n : ℕ) (st : TState) :
    scanRows src C r0 (n + 1) st =
      scanRows src C (r0 + 1) n (scanCols src C r0 0 C st) := by
  unfold scanRows
  rw [List.range'_succ]
  rfl

/-- A row scan splits at an intermediate row. -/
lemma scanRows_split (r0 m n : ℕ) (st : TState) :
    scanRows src C r0 (m + n) st =
      scanRows src C (r0 + m) n (scanRows src C r0 m st) := by
  unfold scanRows
  rw [← List.foldl_append]
  congr 1
  have h := List.range'_append r0 m n 1
  simp only [one_mul] at h
  rw [Nat.add_comm m n, ← h]

/-- Step lemma: a nonzero pixel outside a run leaves the state unchanged. -/
lemma hStep_skip (row col : ℕ) (st : TState) (h0 : st.start = none)
    (hv : src row col ≠ 0) : hStep src C row col st = st := by
  simp [hStep, h0, hv]

/-- Step lemma: a zero pixel outside a run opens one and records the left
neighbor's value (0 at column 0). -/
lemma hStep_open (row col : ℕ) (st : TState) (h0 : st.start = none)
    (hv : src row col = 0) :
    hStep src C row col st =
      ⟨st.out, if 0 < col then src row (col - 1) else 0, some (col, row)⟩ := by
  simp [hStep, h0, hv]

/-- Step lemma: a zero pixel inside a run, away from the last column, leaves
the state unchanged. -/
lemma hStep_run (row col sx sy : ℕ) (st : TState) (h0 : st.start = some (sx, sy))
    (hv : src row col = 0) (hc : col ≠ C - 1) : hStep src C row col st = st := by
  simp [hStep, h0, hv, hc]

/-- Step lemma: a nonzero pixel (or the last column) closes the open run and
performs the two fills. -/
lemma hStep_close (row col sx sy : ℕ) (st : TState) (h0 : st.start = some (sx, sy))
    (hcond : src row col ≠ 0 ∨ col = C - 1) :
    hStep src C row col st =
      ⟨fillPixel
          (fillPixel st.out (sx : ℤ) (sy : ℤ) (endCoord col sx) (endCoord row sy)
            (if sx = 0 then src row col else st.left))
          (endCoord col sx) (endCoord row sy) (col : ℤ) (row : ℤ)
          (if col = C - 1 then (if sx = 0 then src row col else st.left) else src row col),
       (if sx = 0 then src row col else st.left), none⟩ := by
  have hpos : 0 < src row col ∨ col = C - 1 := by
    rcases hcond with h | h
    · exact Or.inl (Nat.pos_of_ne_zero h)
    · exact Or.inr h
  simp [hStep, h0, hpos]

/-- Scanning a stretch of zero pixels strictly before the last column with a
run already open changes nothing. -/
lemma scanCols_zeros (row : ℕ) (sx sy : ℕ) (st : TState)
    (h0 : st.start = some (sx, sy)) :
    ∀ n c0, c0 + n + 1 ≤ C → (∀ c, c0 ≤ c → c < c0 + n → src row c = 0) →
      scanCols src C row c0 n st = st := by
  intro n
  induction n with
  | zero => intro c0 _ _; rfl
  | succ k ih =>
      intro c0 hn hz
      rw [scanCols_succ, hStep_run src C row c0 sx sy st h0 (hz c0 (le_refl c0) (by omega))
        (by omega)]
      exact ih (c0 + 1) (by omega) (fun c h1 h2 => hz c (by omega) (by omega))

/-- If a step away from the last column leaves no open run, the pixel it
processed was nonzero. -/
lemma hStep_none_imp (row col : ℕ) (st : TState) (hc : col ≠ C - 1)
    (h : (hStep src C row col st).start = none) : src row col ≠ 0 := by
  intro hv
  rcases h0 : st.start with _ | p
  · rw [hStep_open src C row col st h0 hv] at h
    simp at h
  · rw [hStep_run src C row col p.1 p.2 st (by rw [h0]) hv hc] at h
    rw [h0] at h
    simp at h

/-- If a column scan that stays away from the last column ends with no open
run, its last processed pixel was nonzero. -/
lemma scanCols_none_last (row c0 n : ℕ) (st : TState) (hn : 1 ≤ n)
    (hend : c0 + n + 1 ≤ C)
    (h : (scanCols src C row c0 n st).start = none) : src row (c0 + n - 1) ≠ 0 := by
  obtain ⟨k, rfl⟩ : ∃ k, n = k + 1 := ⟨n - 1, by omega⟩
  rw [scanCols_split src C row c0 k 1, scanCols_succ, scanCols_zero] at h
  have := hStep_none_imp src C row (c0 + k) (scanCols src C row c0 k st) (by omega) h
  simpa using this

/-- Closing a run of the current row at column `c0` writes only pixels of
row `row` in columns `[sx, c0]`. -/
lemma hStep_close_out_within (row c0 sx : ℕ) (st : TState) (h0 : st.start = some (sx, row))
    (hsx : sx ≤ c0) (hcond : src row c0 ≠ 0 ∨ c0 = C - 1) :
    ∀ r c, (r ≠ row ∨ c < sx ∨ c0 < c) →
      (hStep src C row c0 st).out r c = st.out r c := by
  intro r c hg
  rw [hStep_close src C row c0 sx row st h0 hcond]
  dsimp only
  rw [fillPixel, fillPixel, endCoord_self, endCoord_eq c0 sx, if_pos hsx]
  rw [if_neg, if_neg] <;> omega

/-- Closing a carried-over run (opened at the previous row's last column) at
a column `c0` strictly before both `C-1` and the column before it writes
nothing at all; at `c0 = C-2` it writes only the pixel `(row, c0)`.  Both
cases write at most `(row, c0)`. -/
lemma hStep_close_out_carry (row c0 : ℕ) (st : TState)
    (h0 : st.start = some (C - 1, row - 1)) (hrow : 1 ≤ row) (hc0 : c0 + 1 ≤ C - 1)
    (hcond : src row c0 ≠ 0 ∨ c0 = C - 1) :
    ∀ r c, (r ≠ row ∨ c ≠ c0) →
      (hStep src C row c0 st).out r c = st.out r c := by
  intro r c hg
  rw [hStep_close src C row c0 (C - 1) (row - 1) st h0 hcond]
  dsimp only
  rw [fillPixel, fillPixel, endCoord_pred row hrow, endCoord_eq c0 (C - 1),
    if_neg (by omega : ¬ C - 1 ≤ c0)]
  rw [if_neg, if_neg] <;> omega

/-- The general mid-row scan lemma, for a stretch of columns `[c0, c0+n)`
lying strictly before the last column.  From an entry state whose open run
(if any) is either a run of the current row opened at or before `c0`, or a
run carried over from the previous row's last column, the scan writes only
pixels of row `row` at columns in `[lo, c0+n)`, and the exit state's open
run is of one of four shapes: closed; opened at a scanned column over zero
pixels; the entry run of this row, persisting over all-zero scanned pixels;
or the carried entry run, persisting over all-zero scanned pixels. -/
lemma scanCols_mid (row lo : ℕ) :
    ∀ n c0 (st : TState),
      c0 + n + 1 ≤ C →
      lo ≤ c0 →
      (st.start = none
        ∨ (∃ sx, st.start = some (sx, row) ∧ lo ≤ sx ∧ sx ≤ c0)
        ∨ (st.start = some (C - 1, row - 1) ∧ 1 ≤ row)) →
      ((∀ r c, (r ≠ row ∨ c < lo ∨ c0 + n ≤ c) →
          (scanCols src C row c0 n st).out r c = st.out r c)
       ∧ ((scanCols src C row c0 n st).start = none
          ∨ (∃ sx, (scanCols src C row c0 n st).start = some (sx, row) ∧ lo ≤ sx
              ∧ c0 ≤ sx ∧ sx < c0 + n
              ∧ (∀ c, sx ≤ c → c < c0 + n → src row c = 0))
          ∨ (∃ sx, (scanCols src C row c0 n st).start = some (sx, row)
              ∧ st.start = some (sx, row) ∧ lo ≤ sx ∧ sx ≤ c0
              ∧ (∀ c, c0 ≤ c → c < c0 + n → src row c = 0))
          ∨ ((scanCols src C row c0 n st).start = some (C - 1, row - 1)
              ∧ st.start = some (C - 1, row - 1) ∧ 1 ≤ row
              ∧ (∀ c, c0 ≤ c → c < c0 + n → src row c = 0)))) := by
  intro n
  induction n with
  | zero =>
      intro c0 st _ _ hentry
      refine ⟨fun r c _ => rfl, ?_⟩
      rcases hentry with h | ⟨sx, h1, h2, h3⟩ | ⟨h1, h2⟩
      · exact Or.inl h
      · exact Or.inr (Or.inr (Or.inl ⟨sx, h1, h1, h2, h3, fun c hc1 hc2 => by omega⟩))
      · exact Or.inr (Or.inr (Or.inr ⟨h1, h1, h2, fun c hc1 hc2 => by omega⟩))
  | succ k ih =>
      intro c0 st hn hlo hentry
      rw [scanCols_succ]
      have hc0C : c0 ≠ C - 1 := by omega
      -- facts about the single step at column c0
      rcases hentry with h0 | ⟨sx, h0, hsx1, hsx2⟩ | ⟨h0, hrow⟩
      · -- entry: no open run
        by_cases hv : src row c0 = 0
        · -- opens a run at (c0, row)
          rw [hStep_open src C row c0 st h0 hv]
          have ihres := ih (c0 + 1)
            ⟨st.out, if 0 < c0 then src row (c0 - 1) else 0, some (c0, row)⟩
            (by omega) (by omega)
            (Or.inr (Or.inl ⟨c0, rfl, by omega, by omega⟩))
          refine ⟨fun r c hg => ihres.1 r c (by omega), ?_⟩
          rcases ihres.2 with h | ⟨tx, e1, e2, e3, e4, e5⟩ | ⟨tx, e1, e2, e3, e4, e5⟩ |
            ⟨e1, e2, e3, e4⟩
          · exact Or.inl h
          · exact Or.inr (Or.inl ⟨tx, e1, e2, by omega, by omega,
              fun c hc1 hc2 => e5 c hc1 (by omega)⟩)
          · -- the persisted run is the one just opened at c0
            have htx : c0 = tx := by simpa using e2
            refine Or.inr (Or.inl ⟨tx, e1, e3, by omega, by omega,
              fun c hc1 hc2 => ?_⟩)
            rcases Nat.lt_or_ge tx c with h | h
            · exact e5 c (by omega) (by omega)
            · have hceq : c = c0 := by omega
              rw [hceq]; exact hv
          · -- impossible: the carried shape cannot equal the just-opened run
            exfalso
            have := e2
            simp at this
            omega
        · -- nonzero pixel: state unchanged
          rw [hStep_skip src C row c0 st h0 hv]
          have ihres := ih (c0 + 1) st (by omega) (by omega) (Or.inl h0)
          refine ⟨fun r c hg => ihres.1 r c (by omega), ?_⟩
          rcases ihres.2 with h | ⟨tx, e1, e2, e3, e4, e5⟩ | ⟨tx, e1, e2, e3, e4, e5⟩ |
            ⟨e1, e2, e3, e4⟩
          · exact Or.inl h
          · exact Or.inr (Or.inl ⟨tx, e1, e2, by omega, by omega,
              fun c hc1 hc2 => e5 c hc1 (by omega)⟩)
          · rw [h0] at e2; exact absurd e2 (by simp)
          · rw [h0] at e2; exact absurd e2 (by simp)
      · -- entry: an open run of this row, started at sx ≤ c0
        by_cases hv : src row c0 = 0
        · -- run persists over the zero pixel
          rw [hStep_run src C row c0 sx row st h0 hv hc0C]
          have ihres := ih (c0 + 1) st (by omega) (by omega)
            (Or.inr (Or.inl ⟨sx, h0, hsx1, by omega⟩))
          refine ⟨fun r c hg => ihres.1 r c (by omega), ?_⟩
          rcases ihres.2 with h | ⟨tx, e1, e2, e3, e4, e5⟩ | ⟨tx, e1, e2, e3, e4, e5⟩ |
            ⟨e1, e2, e3, e4⟩
          · exact Or.inl h
          · exact Or.inr (Or.inl ⟨tx, e1, e2, by omega, by omega,
              fun c hc1 hc2 => e5 c hc1 (by omega)⟩)
          · -- persisted: it is the entry run
            have htx : sx = tx := by
              rw [h0] at e2
              simpa using e2
            refine Or.inr (Or.inr (Or.inl ⟨tx, e1, htx ▸ h0, by omega, by omega,
              fun c hc1 hc2 => ?_⟩))
            rcases Nat.eq_or_lt_of_le hc1 with h | h
            · rw [← h]; exact hv
            · exact e5 c (by omega) (by omega)
          · -- impossible: carried shape differs from the entry run
            exfalso
            rw [h0] at e2
            simp at e2
            omega
        · -- nonzero pixel closes the run; only row `row`, columns [sx, c0] are written
          have hclose := hStep_close_out_within src C row c0 sx st h0 hsx2 (Or.inl hv)
          have hnone : (hStep src C row c0 st).start = none := by
            rw [hStep_close src C row c0 sx row st h0 (Or.inl hv)]
          have ihres := ih (c0 + 1) (hStep src C row c0 st) (by omega) (by omega)
            (Or.inl hnone)
          refine ⟨fun r c hg => ?_, ?_⟩
          · rw [ihres.1 r c (by omega), hclose r c (by omega)]
          · rcases ihres.2 with h | ⟨tx, e1, e2, e3, e4, e5⟩ | ⟨tx, e1, e2, e3, e4, e5⟩ |
              ⟨e1, e2, e3, e4⟩
            · exact Or.inl h
            · exact Or.inr (Or.inl ⟨tx, e1, e2, by omega, by omega,
                fun c hc1 hc2 => e5 c hc1 (by omega)⟩)
            · rw [hnone] at e2; exact absurd e2 (by simp)
            · rw [hnone] at e2; exact absurd e2 (by simp)
      · -- entry: a run carried over from the previous row
        by_cases hv : src row c0 = 0
        · -- carried run persists over the zero pixel
          rw [hStep_run src C row c0 (C - 1) (row - 1) st h0 hv hc0C]
          have ihres := ih (c0 + 1) st (by omega) (by omega) (Or.inr (Or.inr ⟨h0, hrow⟩))
          refine ⟨fun r c hg => ihres.1 r c (by omega), ?_⟩
          rcases ihres.2 with h | ⟨tx, e1, e2, e3, e4, e5⟩ | ⟨tx, e1, e2, e3, e4, e5⟩ |
            ⟨e1, e2, e3, e4⟩
          · exact Or.inl h
          · exact Or.inr (Or.inl ⟨tx, e1, e2, by omega, by omega,
              fun c hc1 hc2 => e5 c hc1 (by omega)⟩)
          · -- impossible: the entry run of the recursive call is the carried one
            exfalso
            rw [h0] at e2
            simp at e2
            omega
          · refine Or.inr (Or.inr (Or.inr ⟨e1, h0, hrow, fun c hc1 hc2 => ?_⟩))
            rcases Nat.eq_or_lt_of_le hc1 with h | h
            · rw [← h]; exact hv
            · exact e4 c (by omega) (by omega)
        · -- nonzero pixel closes the carried run; at most (row, c0) is written
          have hclose := hStep_close_out_carry src C row c0 st h0 hrow (by omega)
            (Or.inl hv)
          have hnone : (hStep src C row c0 st).start = none := by
            rw [hStep_close src C row c0 (C - 1) (row - 1) st h0 (Or.inl hv)]
          have ihres := ih (c0 + 1) (hStep src C row c0 st) (by omega) (by omega)
            (Or.inl hnone)
          refine ⟨fun r c hg => ?_, ?_⟩
          · rw [ihres.1 r c (by omega), hclose r c (by omega)]
          · rcases ihres.2 with h | ⟨tx, e1, e2, e3, e4, e5⟩ | ⟨tx, e1, e2, e3, e4, e5⟩ |
              ⟨e1, e2, e3, e4⟩
            · exact Or.inl h
            · exact Or.inr (Or.inl ⟨tx, e1, e2, by omega, by omega,
                fun c hc1 hc2 => e5 c hc1 (by omega)⟩)
            · rw [hnone] at e2; exact absurd e2 (by simp)
            · rw [hnone] at e2; exact absurd e2 (by simp)

/-- The step at the last column of a row: any open run closes there (a new
one can only open at the last column itself).  Writes stay in row `row` at
columns at least `lo`, except that closing a carried-over run also writes
the single pixel `(row-1, C-1)`. -/
lemma hStep_lastCol (row lo : ℕ) (st : TState) (hC : 1 ≤ C) (hlo : lo + 1 ≤ C)
    (hentry : st.start = none
      ∨ (∃ sx, st.start = some (sx, row) ∧ lo ≤ sx ∧ sx ≤ C - 1)
      ∨ (st.start = some (C - 1, row - 1) ∧ 1 ≤ row)) :
    (∀ r c, (r ≠ row ∨ c < lo) →
        (st.start = some (C - 1, row - 1) → ¬(r = row - 1 ∧ c = C - 1)) →
        (hStep src C row (C - 1) st).out r c = st.out r c)
    ∧ ((hStep src C row (C - 1) st).start = none
       ∨ ((hStep src C row (C - 1) st).start = some (C - 1, row)
           ∧ src row (C - 1) = 0 ∧ st.start = none)) := by
  rcases hentry with h0 | ⟨sx, h0, hsx1, hsx2⟩ | ⟨h0, hrow⟩
  · by_cases hv : src row (C - 1) = 0
    · rw [hStep_open src C row (C - 1) st h0 hv]
      exact ⟨fun r c _ _ => rfl, Or.inr ⟨rfl, hv, h0⟩⟩
    · rw [hStep_skip src C row (C - 1) st h0 hv]
      exact ⟨fun r c _ _ => rfl, Or.inl h0⟩
  · refine ⟨fun r c hg _ => ?_, Or.inl ?_⟩
    · exact hStep_close_out_within src C row (C - 1) sx st h0 hsx2 (Or.inr rfl) r c
        (by omega)
    · rw [hStep_close src C row (C - 1) sx row st h0 (Or.inr rfl)]
  · refine ⟨fun r c hg hg2 => ?_, Or.inl ?_⟩
    · have hng := hg2 h0
      rw [hStep_close src C row (C - 1) (C - 1) (row - 1) st h0 (Or.inr rfl)]
      dsimp only
      rw [fillPixel, fillPixel, endCoord_pred row hrow, endCoord_self]
      rw [if_neg, if_neg] <;> omega
    · rw [hStep_close src C row (C - 1) (C - 1) (row - 1) st h0 (Or.inr rfl)]

/-- A full row scan from a clean or carried-over entry state: all writes are
in row `row`, plus possibly the single pixel `(row-1, C-1)` when the entry
state carries a run; the exit state is clean, or opens exactly at this row's
last column, which then holds a zero pixel whose left neighbor (when C ≥ 2)
is nonzero. -/
lemma scanRow_full (row : ℕ) (st : TState) (hC : 1 ≤ C)
    (hentry : st.start = none ∨ (st.start = some (C - 1, row - 1) ∧ 1 ≤ row)) :
    (∀ r c, r ≠ row →
        (st.start = some (C - 1, row - 1) → ¬(r = row - 1 ∧ c = C - 1)) →
        (scanCols src C row 0 C st).out r c = st.out r c)
    ∧ ((scanCols src C row 0 C st).start = none
       ∨ ((scanCols src C row 0 C st).start = some (C - 1, row)
           ∧ src row (C - 1) = 0 ∧ (2 ≤ C → src row (C - 2) ≠ 0))) := by
  have hsplit : scanCols src C row 0 C st =
      hStep src C row (C - 1) (scanCols src C row 0 (C - 1) st) := by
    have h1 : C = (C - 1) + 1 := by omega
    rw [show scanCols src C row 0 C st = scanCols src C row 0 ((C - 1) + 1) st from by
      rw [← h1]]
    rw [scanCols_split src C row 0 (C - 1) 1, scanCols_succ, scanCols_zero]
    simp
  have hmid := scanCols_mid src C row 0 (C - 1) 0 st (by omega) (le_refl 0)
    (by rcases hentry with h | ⟨h1, h2⟩
        · exact Or.inl h
        · exact Or.inr (Or.inr ⟨h1, h2⟩))
  set stM := scanCols src C row 0 (C - 1) st with hstM
  have hMentry : stM.start = none
      ∨ (∃ sx, stM.start = some (sx, row) ∧ 0 ≤ sx ∧ sx ≤ C - 1)
      ∨ (stM.start = some (C - 1, row - 1) ∧ 1 ≤ row) := by
    rcases hmid.2 with h | ⟨sx, e1, e2, e3, e4, e5⟩ | ⟨sx, e1, e2, e3, e4, e5⟩ |
      ⟨e1, e2, e3, e4⟩
    · exact Or.inl h
    · exact Or.inr (Or.inl ⟨sx, e1, by omega, by omega⟩)
    · exact Or.inr (Or.inl ⟨sx, e1, by omega, by omega⟩)
    · exact Or.inr (Or.inr ⟨e1, e3⟩)
  have hlast := hStep_lastCol src C row 0 stM hC (by omega) hMentry
  constructor
  · intro r c hr hg2
    rw [hsplit]
    rw [hlast.1 r c (Or.inl hr) ?_, hmid.1 r c (Or.inl hr)]
    -- the carried shape can only be the entry's carried run
    intro hMc
    rcases hmid.2 with h | ⟨sx, e1, e2, e3, e4, e5⟩ | ⟨sx, e1, e2, e3, e4, e5⟩ |
      ⟨e1, e2, e3, e4⟩
    · rw [h] at hMc; exact absurd hMc (by simp)
    · rw [e1] at hMc
      have := hMc
      simp at this
      omega
    · -- a persisted same-row run: the entry state had it, impossible unless carried
      rcases hentry with hh | ⟨hh, hh2⟩
      · rw [hh] at e2; exact absurd e2 (by simp)
      · rw [hh] at e2
        have := e2
        simp at this
        omega
    · exact hg2 e2
  · rcases hlast.2 with h | ⟨h1, h2, h3⟩
    · rw [hsplit]; exact Or.inl h
    · refine Or.inr ⟨by rw [hsplit]; exact h1, h2, fun hC2 => ?_⟩
      have := scanCols_none_last src C row 0 (C - 1) st (by omega) (by omega) h3
      simpa using this

/-- Scanning a block of rows from a clean or carried-over state: pixels in
rows before the block keep their values (except the single carried pixel
`(r0-1, C-1)` when the entry carries a run), pixels in rows after the block
are untouched, and the exit state is clean or carries a run opened at the
last scanned row's last column, with that pixel zero and (for C ≥ 2) its
left neighbor nonzero. -/
lemma scanRows_locality :
    ∀ n r0 (st : TState), 1 ≤ C →
      (st.start = none ∨ (st.start = some (C - 1, r0 - 1) ∧ 1 ≤ r0)) →
      ((∀ r c, (r < r0 ∨ r0 + n ≤ r) →
          (st.start = some (C - 1, r0 - 1) → ¬(r = r0 - 1 ∧ c = C - 1)) →
          (scanRows src C r0 n st).out r c = st.out r c)
       ∧ ((scanRows src C r0 n st).start = none
          ∨ (∃ ρ, (scanRows src C r0 n st).start = some (C - 1, ρ) ∧ ρ + 1 = r0 + n
              ∧ src ρ (C - 1) = 0 ∧ (2 ≤ C → src ρ (C - 2) ≠ 0))
          ∨ (n = 0 ∧ (scanRows src C r0 n st).start = st.start))) := by
  intro n
  induction n with
  | zero =>
      intro r0 st _ _
      exact ⟨fun r c _ _ => rfl, Or.inr (Or.inr ⟨rfl, rfl⟩)⟩
  | succ k ih =>
      intro r0 st hC hentry
      rw [scanRows_succ]
      have hrow := scanRow_full src C r0 st hC hentry
      set st1 := scanCols src C r0 0 C st with hst1
      have hentry1 : st1.start = none ∨ (st1.start = some (C - 1, (r0 + 1) - 1) ∧ 1 ≤ r0 + 1) := by
        rcases hrow.2 with h | ⟨h1, h2, h3⟩
        · exact Or.inl h
        · exact Or.inr ⟨by simpa using h1, by omega⟩
      have ihres := ih (r0 + 1) st1 hC hentry1
      constructor
      · intro r c hr hg2
        have hr1 : r ≠ r0 := by omega
        rw [ihres.1 r c (by omega) ?_, hrow.1 r c hr1 hg2]
        intro h1c
        exact fun hrc => absurd hrc (by omega)
      · rcases ihres.2 with h | ⟨ρ, e1, e2, e3, e4⟩ | ⟨e1, e2⟩
        · exact Or.inl h
        · exact Or.inr (Or.inl ⟨ρ, e1, by omega, e3, e4⟩)
        · subst e1
          rcases hrow.2 with h | ⟨h1, h2, h3⟩
          · rw [scanRows_zero] at e2
            rw [e2] at *
            exact Or.inl h
          · rw [scanRows_zero] at e2
            rw [e2] at *
            exact Or.inr (Or.inl ⟨r0, h1, by omega, h2, h3⟩)

/-- Scanning the remaining columns of a row from a clean state: only pixels
of row `row` at columns ≥ `c0` change, and the exit state is clean or opens
at the row's last column, which then holds a zero pixel. -/
lemma scanCols_tail (row c0 : ℕ) (st : TState) (h0 : st.start = none)
    (hC : 1 ≤ C) (hc0 : c0 ≤ C) :
    (∀ r c, (r ≠ row ∨ c < c0) → (scanCols src C row c0 (C - c0) st).out r c = st.out r c)
    ∧ ((scanCols src C row c0 (C - c0) st).start = none
       ∨ ((scanCols src C row c0 (C - c0) st).start = some (C - 1, row)
           ∧ src row (C - 1) = 0)) := by
  rcases Nat.eq_or_lt_of_le hc0 with hceq | hclt
  · rw [hceq]
    simp only [Nat.sub_self]
    exact ⟨fun r c _ => rfl, Or.inl h0⟩
  · have hsplit : scanCols src C row c0 (C - c0) st =
        hStep src C row (C - 1) (scanCols src C row c0 (C - 1 - c0) st) := by
      rw [show C - c0 = (C - 1 - c0) + 1 from by omega]
      rw [scanCols_split src C row c0 (C - 1 - c0) 1]
      rw [show c0 + (C - 1 - c0) = C - 1 from by omega]
      rw [scanCols_succ, scanCols_zero]
    have hmid := scanCols_mid src C row c0 (C - 1 - c0) c0 st (by omega) (le_refl c0)
      (Or.inl h0)
    set stM := scanCols src C row c0 (C - 1 - c0) st with hstM
    have hnotcarry : ¬ stM.start = some (C - 1, row - 1) := by
      intro hMc
      rcases hmid.2 with h | ⟨sx, e1, e2, e3, e4, e5⟩ | ⟨sx, e1, e2, e3, e4, e5⟩ |
        ⟨e1, e2, e3, e4⟩
      · rw [h] at hMc; exact absurd hMc (by simp)
      · rw [e1] at hMc
        have := hMc
        simp at this
        omega
      · rw [h0] at e2; exact absurd e2 (by simp)
      · rw [h0] at e2; exact absurd e2 (by simp)
    have hMentry : stM.start = none
        ∨ (∃ sx, stM.start = some (sx, row) ∧ c0 ≤ sx ∧ sx ≤ C - 1)
        ∨ (stM.start = some (C - 1, row - 1) ∧ 1 ≤ row) := by
      rcases hmid.2 with h | ⟨sx, e1, e2, e3, e4, e5⟩ | ⟨sx, e1, e2, e3, e4, e5⟩ |
        ⟨e1, e2, e3, e4⟩
      · exact Or.inl h
      · exact Or.inr (Or.inl ⟨sx, e1, by omega, by omega⟩)
      · rw [h0] at e2; exact absurd e2 (by simp)
      · rw [h0] at e2; exact absurd e2 (by simp)
    have hlast := hStep_lastCol src C row c0 stM hC (by omega) hMentry
    constructor
    · intro r c hg
      rw [hsplit, hlast.1 r c hg (fun h => absurd h hnotcarry), hmid.1 r c (by omega)]
    · rcases hlast.2 with h | ⟨h1, h2, _⟩
      · rw [hsplit]; exact Or.inl h
      · exact Or.inr ⟨by rw [hsplit]; exact h1, h2⟩

/-- Processing one full zero run of the current row together with its
terminating pixel: entering cleanly at the run start `s` (all of
`[s, t)` zero, the pixel at `t` nonzero), the scan fills columns `[s, ex]`
of row `row` with the left fill value and then `[ex, t]` (overwriting `ex`)
with the second fill value, where `ex = t - (t-s)/2`.  The left fill value
is the left neighbor's value, or the terminator's value for a run starting
at column 0; the second fill value is the terminator's value, except at the
last column, where the left fill value is reused. -/
lemma scanCols_runFill (row s t : ℕ) (st : TState) (h0 : st.start = none)
    (hst : s < t) (ht : t + 1 ≤ C)
    (hz : ∀ c, s ≤ c → c < t → src row c = 0) (hterm : src row t ≠ 0) :
    (∀ r c, (scanCols src C row s (t + 1 - s) st).out r c =
        if r = row ∧ t - (t - s) / 2 ≤ c ∧ c ≤ t then
          (if t = C - 1 then (if s = 0 then src row t else src row (s - 1)) else src row t)
        else if r = row ∧ s ≤ c ∧ c ≤ t - (t - s) / 2 then
          (if s = 0 then src row t else src row (s - 1))
        else st.out r c)
    ∧ (scanCols src C row s (t + 1 - s) st).start = none := by
  have hdecomp : scanCols src C row s (t + 1 - s) st =
      hStep src C row t (scanCols src C row (s + 1) (t - s - 1)
        (hStep src C row s st)) := by
    rw [show t + 1 - s = 1 + (t - s - 1) + 1 from by omega]
    rw [scanCols_split src C row s (1 + (t - s - 1)) 1]
    rw [show s + (1 + (t - s - 1)) = t from by omega]
    rw [scanCols_succ src C row t 0, scanCols_zero]
    rw [scanCols_split src C row s 1 (t - s - 1), scanCols_succ, scanCols_zero]
  have hopen := hStep_open src C row s st h0 (hz s (le_refl s) hst)
  set st1 : TState := ⟨st.out, if 0 < s then src row (s - 1) else 0, some (s, row)⟩
    with hst1
  have hzeros : scanCols src C row (s + 1) (t - s - 1) st1 = st1 := by
    refine scanCols_zeros src C row s row st1 rfl (t - s - 1) (s + 1) (by omega) ?_
    intro c h1 h2
    exact hz c (by omega) (by omega)
  have hclose := hStep_close src C row t s row st1 rfl (Or.inl hterm)
  have hL : (if s = 0 then src row t else st1.left) =
      (if s = 0 then src row t else src row (s - 1)) := by
    by_cases hs : s = 0
    · simp [hs]
    · simp [hs, hst1, Nat.pos_of_ne_zero hs]
  rw [hdecomp, hopen, hzeros, hclose]
  refine ⟨fun r c => ?_, rfl⟩
  dsimp only
  rw [fillPixel, fillPixel, endCoord_self, endCoord_eq t s, if_pos (by omega : s ≤ t), hL]
  by_cases hA : r = row ∧ t - (t - s) / 2 ≤ c ∧ c ≤ t
  · rw [if_pos (by omega : (↑row : ℤ) ≤ ↑r ∧ (↑r : ℤ) ≤ ↑row ∧
      ((t - (t - s) / 2 : ℕ) : ℤ) ≤ ↑c ∧ (↑c : ℤ) ≤ ↑t), if_pos hA]
  · rw [if_neg (by omega : ¬((↑row : ℤ) ≤ ↑r ∧ (↑r : ℤ) ≤ ↑row ∧
      ((t - (t - s) / 2 : ℕ) : ℤ) ≤ ↑c ∧ (↑c : ℤ) ≤ ↑t)), if_neg hA]
    by_cases hB : r = row ∧ s ≤ c ∧ c ≤ t - (t - s) / 2
    · rw [if_pos (by omega : (↑row : ℤ) ≤ ↑r ∧ (↑r : ℤ) ≤ ↑row ∧
        (↑s : ℤ) ≤ ↑c ∧ (↑c : ℤ) ≤ ((t - (t - s) / 2 : ℕ) : ℤ)), if_pos hB]
    · rw [if_neg (by omega : ¬((↑row : ℤ) ≤ ↑r ∧ (↑r : ℤ) ≤ ↑row ∧
        (↑s : ℤ) ≤ ↑c ∧ (↑c : ℤ) ≤ ((t - (t - s) / 2 : ℕ) : ℤ))), if_neg hB]

/-- Entering row `r` of the pass: after scanning rows `[0, r)` from the
initial state, the buffer still holds the source values everywhere in rows
`≥ r`, and the state is clean or carries a run opened at row `r-1`'s last
column (with that pixel zero and, for C ≥ 2, its left neighbor nonzero). -/
lemma scanRows_entry (r : ℕ) (hC : 1 ≤ C) :
    (∀ ρ c, r ≤ ρ → (scanRows src C 0 r ⟨src, 0, none⟩).out ρ c = src ρ c)
    ∧ ((scanRows src C 0 r ⟨src, 0, none⟩).start = none
       ∨ ((scanRows src C 0 r ⟨src, 0, none⟩).start = some (C - 1, r - 1) ∧ 1 ≤ r
           ∧ src (r - 1) (C - 1) = 0 ∧ (2 ≤ C → src (r - 1) (C - 2) ≠ 0))) := by
  have h := scanRows_locality src C r 0 ⟨src, 0, none⟩ hC (Or.inl rfl)
  constructor
  · intro ρ c hρ
    exact h.1 ρ c (by omega) (fun hcontra => absurd hcontra (by simp))
  · rcases h.2 with h1 | ⟨ρ, e1, e2, e3, e4⟩ | ⟨e1, e2⟩
    · exact Or.inl h1
    · have hρ : ρ = r - 1 := by omega
      subst hρ
      exact Or.inr ⟨e1, by omega, e3, e4⟩
    · exact Or.inl (by rw [e2])

end HPassLemmas

/-- Master lemma for the horizontal pass of `edgeTaper` on one full zero run
of row `r`: columns `[s, t)` of row `r` are zero, the pixel at column `t` is
nonzero, and the scan enters the run cleanly — either a nonzero pixel stands
at `s - 1`, or the run starts at column 0 and no run is carried into row `r`
from the previous row's trailing zero.  The final output of the pass at
row `r`, columns `[s, t]`, is then given by the two fills performed when the
run closed: columns before `ex = t - (t-s)/2` hold the left fill value and
columns `[ex, t]` the second fill value; the left fill value is the left
neighbor's value (the terminator's value when `s = 0`), and the second fill
value is the terminator's value except at the last column, where the left
fill value is reused. -/
lemma hPass_run (img : Grid ℕ) (r s t : ℕ)
    (hr : r < img.rows) (hC : 2 ≤ img.cols) (hst : s < t) (ht : t ≤ img.cols - 1)
    (hz : ∀ c, s ≤ c → c < t → img.data r c = 0)
    (hterm : img.data r t ≠ 0)
    (hentry : (1 ≤ s ∧ img.data r (s - 1) ≠ 0)
      ∨ (s = 0 ∧ (r = 0 ∨ img.data (r - 1) (img.cols - 1) ≠ 0
          ∨ img.data (r - 1) (img.cols - 2) = 0))) :
    ∀ c, s ≤ c → c ≤ t →
      (hPass img).data r c =
        if t - (t - s) / 2 ≤ c then
          (if t = img.cols - 1 then (if s = 0 then img.data r t else img.data r (s - 1))
           else img.data r t)
        else (if s = 0 then img.data r t else img.data r (s - 1)) := by
  intro c hc1 hc2
  have hC1 : 1 ≤ img.cols := by omega
  -- abbreviations
  have hA := scanRows_entry img.data img.cols r hC1
  -- decompose the pass: rows [0, r), row r, rows [r+1, rows)
  have e1 : scanRows img.data img.cols 0 img.rows ⟨img.data, 0, none⟩ =
      scanRows img.data img.cols (r + 1) (img.rows - (r + 1))
        (scanCols img.data img.cols r 0 img.cols
          (scanRows img.data img.cols 0 r ⟨img.data, 0, none⟩)) := by
    have h1 := scanRows_split img.data img.cols 0 r (img.rows - r) ⟨img.data, 0, none⟩
    rw [show r + (img.rows - r) = img.rows from by omega, Nat.zero_add] at h1
    have h2 := scanRows_split img.data img.cols r 1 (img.rows - r - 1)
      (scanRows img.data img.cols 0 r ⟨img.data, 0, none⟩)
    rw [show (1 : ℕ) + (img.rows - r - 1) = img.rows - r from by omega] at h2
    rw [h1, h2, scanRows_succ, scanRows_zero,
      show img.rows - r - 1 = img.rows - (r + 1) from by omega]
  -- decompose row r: the prefix [0, s), the run [s, t], the tail [t+1, cols)
  have e2 : scanCols img.data img.cols r 0 img.cols
        (scanRows img.data img.cols 0 r ⟨img.data, 0, none⟩) =
      scanCols img.data img.cols r (t + 1) (img.cols - (t + 1))
        (scanCols img.data img.cols r s (t + 1 - s)
          (scanCols img.data img.cols r 0 s
            (scanRows img.data img.cols 0 r ⟨img.data, 0, none⟩))) := by
    have h3 := scanCols_split img.data img.cols r 0 s (img.cols - s)
      (scanRows img.data img.cols 0 r ⟨img.data, 0, none⟩)
    rw [show s + (img.cols - s) = img.cols from by omega, Nat.zero_add] at h3
    have h4 := scanCols_split img.data img.cols r s (t + 1 - s) (img.cols - (t + 1))
      (scanCols img.data img.cols r 0 s
        (scanRows img.data img.cols 0 r ⟨img.data, 0, none⟩))
    rw [show t + 1 - s + (img.cols - (t + 1)) = img.cols - s from by omega,
      show s + (t + 1 - s) = t + 1 from by omega] at h4
    rw [h3, h4]
  -- the state entering row r
  set stA := scanRows img.data img.cols 0 r ⟨img.data, 0, none⟩ with hstA
  -- the prefix scan of row r leaves the state clean at column s
  have hB := scanCols_mid img.data img.cols r 0 s 0 stA (by omega) (le_refl 0)
    (by rcases hA.2 with h | ⟨h1, h2, _, _⟩
        · exact Or.inl h
        · exact Or.inr (Or.inr ⟨h1, h2⟩))
  set stB := scanCols img.data img.cols r 0 s stA with hstB
  have hBstart : stB.start = none := by
    rcases hB.2 with h | ⟨sx, f1, f2, f3, f4, f5⟩ | ⟨sx, f1, f2, f3, f4, f5⟩ |
      ⟨f1, f2, f3, f4⟩
    · exact h
    · -- a run opened inside [0, s) would have covered the nonzero pixel at s-1
      rcases hentry with ⟨hs1, hleft⟩ | ⟨hs0, _⟩
      · exact absurd (f5 (s - 1) (by omega) (by omega)) hleft
      · omega
    · -- a run of row r persisting from the entry state: impossible
      rcases hA.2 with h | ⟨h1, h2, _, _⟩
      · rw [h] at f2; exact absurd f2 (by simp)
      · rw [h1] at f2
        have := f2
        simp at this
        omega
    · -- the carried run persisting through [0, s): contradicts the entry condition
      rcases hentry with ⟨hs1, hleft⟩ | ⟨hs0, hnc⟩
      · exact absurd (f4 (s - 1) (by omega) (by omega)) hleft
      · rcases hA.2 with h | ⟨h1, h2, h3, h4⟩
        · rw [h] at f2; exact absurd f2 (by simp)
        · rcases hnc with h | h | h
          · omega
          · exact absurd h3 h
          · exact absurd (h4 hC) (by simpa using h)
  -- pixels of row r at columns ≥ s still hold the source values
  have hBout : ∀ c', s ≤ c' → stB.out r c' = img.data r c' := by
    intro c' hc'
    rw [hB.1 r c' (by omega), hA.1 r c' (le_refl r)]
  -- the run fill
  have hRun := scanCols_runFill img.data img.cols r s t stB hBstart hst (by omega)
    (fun c' h1 h2 => hz c' h1 h2) hterm
  set stC := scanCols img.data img.cols r s (t + 1 - s) stB with hstC
  -- the tail of row r
  have hD := scanCols_tail img.data img.cols r (t + 1) stC hRun.2 hC1 (by omega)
  set stD := scanCols img.data img.cols r (t + 1) (img.cols - (t + 1)) stC with hstD
  -- the remaining rows
  have hE := scanRows_locality img.data img.cols (img.rows - (r + 1)) (r + 1) stD hC1
    (by rcases hD.2 with h | ⟨h1, h2⟩
        · exact Or.inl h
        · exact Or.inr ⟨by simpa using h1, by omega⟩)
  -- assemble
  clear_value stA stB stC stD
  show (scanRows img.data img.cols 0 img.rows ⟨img.data, 0, none⟩).out r c = _
  rw [e1, e2]
  have hguard : stD.start = some (img.cols - 1, r + 1 - 1) →
      ¬(r = r + 1 - 1 ∧ c = img.cols - 1) := by
    intro hsome hcell
    rcases hD.2 with h | ⟨h1, h2⟩
    · rw [h] at hsome; exact absurd hsome (by simp)
    · -- then c = cols-1 = t and the terminator would be zero
      have : c = img.cols - 1 := hcell.2
      have htC : t = img.cols - 1 := by omega
      rw [← htC] at h2
      exact hterm h2
  rw [hE.1 r c (by omega) hguard, hD.1 r c (by omega), hRun.1 r c]
  -- evaluate the run-fill formula at (r, c)
  by_cases hex : t - (t - s) / 2 ≤ c
  · rw [if_pos ⟨rfl, hex, hc2⟩, if_pos hex]
  · rw [if_neg (fun h => hex h.2.1), if_pos ⟨rfl, hc1, by omega⟩, if_neg hex]

/-! ## Claim C4 (amended): the run split of the horizontal pass -/

/-- C4 (amended): in the horizontal pass, for every maximal run of
zero-valued pixels occupying columns `s..e` of a row, with a nonzero pixel
immediately left of `s` and a nonzero pixel immediately right of `e` that is
not in the last column, the pass fills columns `s` through `m - 1` with the
left neighbor's value and columns `m` through `e` with the right neighbor's
value, where `m = (e+1) - (e+1-s)/2` with integer division.  (For
even-length runs this is the claimed split at `m' = e - (e-s)/2`; for
odd-length runs the midpoint column receives the right value, one column
earlier than claimed.  A terminating pixel in the last column must be
excluded: there the right half is filled with the left value instead — see
C10.  In particular for the row `[5,0,0,0,9,7]` the run over columns `1..3`
becomes `[1,2]` filled with 5 and `[3]` filled with 9.) -/
theorem hPass_run_split_amended (img : Grid ℕ) (r s e : ℕ)
    (hr : r < img.rows) (hs : 1 ≤ s) (hse : s ≤ e) (he : e + 1 ≤ img.cols - 2)
    (hleft : img.data r (s - 1) ≠ 0) (hright : img.data r (e + 1) ≠ 0)
    (hz : ∀ c, s ≤ c → c ≤ e → img.data r c = 0) :
    ∀ c, s ≤ c → c ≤ e →
      (hPass img).data r c =
        if c < (e + 1) - (e + 1 - s) / 2 then img.data r (s - 1)
        else img.data r (e + 1) := by
  intro c h1 h2
  have hC : 2 ≤ img.cols := by omega
  have h := hPass_run img r s (e + 1) hr hC (by omega) (by omega)
    (fun c hc1 hc2 => hz c hc1 (by omega)) hright (Or.inl ⟨hs, hleft⟩) c h1 (by omega)
  rw [h]
  by_cases hex : (e + 1) - (e + 1 - s) / 2 ≤ c
  · rw [if_pos hex, if_neg (show ¬ e + 1 = img.cols - 1 from by omega),
      if_neg (show ¬ c < (e + 1) - (e + 1 - s) / 2 from by omega)]
  · rw [if_neg hex, if_neg (show ¬ s = 0 from by omega),
      if_pos (show c < (e + 1) - (e + 1 - s) / 2 from by omega)]

/-- Witness for C4 (amended) on the single-row image `[5,0,0,0,9,7]`, run
`s = 1`, `e = 3`: column 1 receives the left value 5 and column 3 the right
value 9. -/
theorem hPass_run_split_amended_witness :
    (hPass (byteGridOfLists [[5,0,0,0,9,7]])).data 0 1 = 5 ∧
    (hPass (byteGridOfLists [[5,0,0,0,9,7]])).data 0 3 = 9 := by
  have h1 := hPass_run_split_amended (byteGridOfLists [[5,0,0,0,9,7]]) 0 1 3 (by decide)
    (by decide) (by decide) (by decide) (by decide) (by decide)
    (fun c hc1 hc2 => by interval_cases c <;> rfl) 1 (by decide) (by decide)
  have h3 := hPass_run_split_amended (byteGridOfLists [[5,0,0,0,9,7]]) 0 1 3 (by decide)
    (by decide) (by decide) (by decide) (by decide) (by decide)
    (fun c hc1 hc2 => by interval_cases c <;> rfl) 3 (by decide) (by decide)
  rw [h1, h3]
  exact ⟨by decide, by decide⟩

/-! ## Claim C5 (amended): runs touching the left border -/

/-- C5 (amended): in the horizontal pass, a zero-valued run starting at
column 0 of its row that is terminated by a nonzero pixel is filled —
over its whole extent, not only its second half — with the terminating
pixel's value, not with 0 (the code overwrites the recorded left color with
the terminator's value when `start.x == 0`).  The value 0 appears only when
the run is never terminated by a nonzero pixel.  The statement requires that
no zero-run is carried into the row from the previous row's trailing zero
pixel (first row, or previous row's last pixel nonzero, or its two last
pixels both zero). -/
theorem hPass_left_border_run_amended (img : Grid ℕ) (r e : ℕ)
    (hr : r < img.rows) (hC : 2 ≤ img.cols) (he : e + 1 ≤ img.cols - 1)
    (hz : ∀ c, c ≤ e → img.data r c = 0)
    (hterm : img.data r (e + 1) ≠ 0)
    (hnc : r = 0 ∨ img.data (r - 1) (img.cols - 1) ≠ 0
        ∨ img.data (r - 1) (img.cols - 2) = 0) :
    ∀ c, c ≤ e → (hPass img).data r c = img.data r (e + 1) := by
  intro c hc
  have h := hPass_run img r 0 (e + 1) hr hC (by omega) (by omega)
    (fun c hc1 hc2 => hz c (by omega)) hterm (Or.inr ⟨rfl, hnc⟩) c (by omega) (by omega)
  rw [h]
  split_ifs <;> first | rfl | omega

/-- Witness for C5 (amended) on the single-row image `[0,0,7]`: both run
columns receive the terminator's value 7. -/
theorem hPass_left_border_run_amended_witness :
    (hPass (byteGridOfLists [[0,0,7]])).data 0 0 = 7 ∧
    (hPass (byteGridOfLists [[0,0,7]])).data 0 1 = 7 := by
  have h0 := hPass_left_border_run_amended (byteGridOfLists [[0,0,7]]) 0 1 (by decide)
    (by decide) (by decide) (fun c hc => by interval_cases c <;> rfl) (by decide)
    (Or.inl rfl) 0 (by decide)
  have h1 := hPass_left_border_run_amended (byteGridOfLists [[0,0,7]]) 0 1 (by decide)
    (by decide) (by decide) (fun c hc => by interval_cases c <;> rfl) (by decide)
    (Or.inl rfl) 1 (by decide)
  rw [h0, h1]
  exact ⟨rfl, rfl⟩

/-! ## Claim C10: terminators in the last column are overwritten -/

/-- C10: in the horizontal pass, when a zero-valued run (with a nonzero left
neighbor at `s-1`) is terminated by a nonzero pixel that lies in the last
column of the row, that terminating pixel is itself overwritten with the
run's left-side fill value — the value of the pixel at `s-1` — so its
original value is lost whenever the two differ; a nonzero pixel terminating
such a run at any earlier column is rewritten with its own value and is
therefore unchanged. -/
theorem hPass_last_column_terminator :
    (∀ (img : Grid ℕ) (r s : ℕ), r < img.rows → 1 ≤ s → s + 1 ≤ img.cols - 1 →
        (∀ c, s ≤ c → c < img.cols - 1 → img.data r c = 0) →
        img.data r (s - 1) ≠ 0 → img.data r (img.cols - 1) ≠ 0 →
        (hPass img).data r (img.cols - 1) = img.data r (s - 1)) ∧
    (∀ (img : Grid ℕ) (r s e : ℕ), r < img.rows → 1 ≤ s → s ≤ e → e + 1 ≤ img.cols - 2 →
        (∀ c, s ≤ c → c ≤ e → img.data r c = 0) →
        img.data r (s - 1) ≠ 0 → img.data r (e + 1) ≠ 0 →
        (hPass img).data r (e + 1) = img.data r (e + 1)) := by
  constructor
  · intro img r s hr hs hsC hz hleft hterm
    have h := hPass_run img r s (img.cols - 1) hr (by omega) (by omega) (le_refl _)
      hz hterm (Or.inl ⟨hs, hleft⟩) (img.cols - 1) (by omega) (le_refl _)
    rw [h, if_pos (by omega), if_pos rfl, if_neg (show ¬ s = 0 from by omega)]
  · intro img r s e hr hs hse he hz hleft hterm
    have h := hPass_run img r s (e + 1) hr (by omega) (by omega) (by omega)
      (fun c hc1 hc2 => hz c hc1 (by omega)) hterm (Or.inl ⟨hs, hleft⟩) (e + 1)
      (by omega) (le_refl _)
    rw [h, if_pos (by omega), if_neg (show ¬ e + 1 = img.cols - 1 from by omega)]

/-- Witness for C10: on `[5,0,0,9]` the terminator 9 in the last column is
overwritten with the left value 5; on `[5,0,9,7]` the interior terminator 9
keeps its value. -/
theorem hPass_last_column_terminator_witness :
    (hPass (byteGridOfLists [[5,0,0,9]])).data 0 3 = 5 ∧
    (hPass (byteGridOfLists [[5,0,9,7]])).data 0 2 = 9 := by
  have ha := hPass_last_column_terminator.1 (byteGridOfLists [[5,0,0,9]]) 0 1 (by decide)
    (by decide) (by decide)
    (fun c hc1 hc2 => by
      have hub : c < 3 := hc2
      interval_cases c <;> rfl)
    (by decide) (by decide)
  have hb := hPass_last_column_terminator.2 (byteGridOfLists [[5,0,9,7]]) 0 1 1 (by decide)
    (by decide) (by decide) (by decide) (fun c hc1 hc2 => by interval_cases c <;> rfl)
    (by decide) (by decide)
  exact ⟨ha, hb⟩

end Deblur
